import Mathlib

/-!
# Shallow embedding of the `shardmap` crate (`src/lib.rs`)

The crate provides a sharded hash map `ShardMap<K, V, T: InnerMap<K, V>>`
holding a `Vec` of shard storages, routing each key to the shard at index
`hash(key) as usize % shards.len()`.  Two storage strategies implement the
inner-map traits: `HashMap<K, V>` (Plain, read-only `get` by reference) and
`Mutex<HashMap<K, V>>` (Synchronized, mutable with copy-out `get`).

Modelling decisions:
* `std::collections::HashMap` is an external collaborator; it is modelled by
  an association list (`HM`) with the standard map semantics of `HashMap`:
  `get` returns the entry for the key, `insert` replaces and returns the old
  value, `remove` deletes and returns the old value, `len` counts entries.
* `DefaultHasher` is deterministic within a process; hashing is modelled by
  an explicit pure function `hash : K → Nat` giving the `u64` the hasher
  would produce.  The `as usize` cast in `ShardMap::shard` is the identity
  on a 64-bit platform, so `shard` is `hash k % shards.length`.
* `Mutex<M>` is modelled as a wrapper structure around the interior map;
  lock acquisition/release has no effect observable in a sequential
  embedding, and each operation acts on the interior value.
* `std::thread::available_parallelism()` is an environment input; it is
  passed explicitly as `par : Option Nat` (`none` models `Err`, `some n`
  with `0 < n` models `Ok(NonZeroUsize(n))`).  The `OnceLock` cache makes
  the default shard amount a constant function of that input for the
  process lifetime.
* Methods taking `&mut self` or mutating through a lock are modelled as
  functions returning the updated container.
-/

/-- Model of `std::collections::HashMap<K, V>`: an association list storing
the entries. All reachable states keep keys pairwise distinct. -/
abbrev HM (K V : Type) : Type := List (K × V)

/-- `HashMap::get`: the value stored for `k`, if any. -/
def HM.get {K V : Type} [DecidableEq K] : HM K V → K → Option V
  | [], _ => none
  | (k', v') :: rest, k => if k' = k then some v' else HM.get rest k

/-- `HashMap::insert`: replaces the value for `k` (keeping the stored key)
and returns the previous value, or appends a fresh entry and returns
`none`. The pair is (returned old value, updated map). -/
def HM.insert {K V : Type} [DecidableEq K] : HM K V → K → V → Option V × HM K V
  | [], k, v => (none, [(k, v)])
  | (k', v') :: rest, k, v =>
    if k' = k then (some v', (k', v) :: rest)
    else
      let p := HM.insert rest k v
      (p.1, (k', v') :: p.2)

/-- `HashMap::remove`: deletes the entry for `k` and returns its value.
The pair is (returned removed value, updated map). -/
def HM.remove {K V : Type} [DecidableEq K] : HM K V → K → Option V × HM K V
  | [], _ => (none, [])
  | (k', v') :: rest, k =>
    if k' = k then (some v', rest)
    else
      let p := HM.remove rest k
      (p.1, (k', v') :: p.2)

/-- `HashMap::contains_key`. -/
def HM.contains_key {K V : Type} [DecidableEq K] (m : HM K V) (k : K) : Bool :=
  (HM.get m k).isSome

/-- `HashMap::len`: number of stored entries. -/
def HM.len {K V : Type} (m : HM K V) : Nat :=
  m.length

/-- `HashMap::is_empty`. -/
def HM.is_empty {K V : Type} (m : HM K V) : Bool :=
  m.isEmpty

/-- `HashMap::clear`: removes all entries. -/
def HM.clear {K V : Type} (_ : HM K V) : HM K V :=
  []

/-- Model of `std::sync::Mutex<A>`: a box around the guarded value. Locking
is invisible in a sequential embedding, so operations act on `inner`. -/
structure Mutex (A : Type) where
  inner : A
deriving DecidableEq

/-- `Mutex::into_inner` (the `unwrap` of the poison-free result). -/
def Mutex.into_inner {A : Type} (m : Mutex A) : A :=
  m.inner

instance {A : Type} [Inhabited A] : Inhabited (Mutex A) :=
  ⟨⟨default⟩⟩

/-- The `InnerMap<K, V>: Default` trait: capability interface every shard
storage satisfies. `dflt` models the `Default` supertrait bound. -/
class InnerMap (K V T : Type) where
  dflt : T
  is_empty : T → Bool
  len : T → Nat
  contains_key : T → K → Bool

/-- The `ImmutableInnerMap<K, V>` trait: read-only borrowed access. -/
class ImmutableInnerMap (K V T : Type) extends InnerMap K V T where
  get : T → K → Option V

/-- The `MutableInnerMap<K, V>` trait: mutation through interior locking;
mutating methods return the updated storage. -/
class MutableInnerMap (K V T : Type) extends InnerMap K V T where
  get : T → K → Option V
  insert : T → K → V → Option V × T
  remove : T → K → Option V × T
  clear : T → T

/-- `ShardMap<K, V, T>`: a `Vec` of shard storages. -/
structure ShardMap (K V T : Type) where
  shards : List T
deriving DecidableEq

/-- `ShardMap<K, V>` with the default `T = HashMap<K, V>` (Plain). -/
abbrev PlainShardMap (K V : Type) : Type := ShardMap K V (HM K V)

/-- `MutableShardMap<K, V> = ShardMap<K, V, Mutex<HashMap<K, V>>>`. -/
abbrev MutableShardMap (K V : Type) : Type := ShardMap K V (Mutex (HM K V))

/-- `default_shard_amount()`:
`(available_parallelism().map_or(1, usize::from) * 4).next_power_of_two()`,
cached in a `OnceLock` — hence a pure function of the process environment
input `par`. -/
def default_shard_amount (par : Option Nat) : Nat :=
  Nat.nextPowerOfTwo (par.getD 1 * 4)

/-- `ShardMap::new()`: `default_shard_amount()` shards, each
`Default::default()`. -/
def ShardMap.new (K V T : Type) [InnerMap K V T] (par : Option Nat) :
    ShardMap K V T :=
  ⟨List.replicate (default_shard_amount par) (InnerMap.dflt (K := K) (V := V))⟩

/-- `ShardMap::is_empty`: all shards empty. -/
def ShardMap.is_empty {K V T : Type} [InnerMap K V T] (m : ShardMap K V T) :
    Bool :=
  m.shards.all fun s => InnerMap.is_empty (K := K) (V := V) s

/-- `ShardMap::len`: sum of the shard lengths. -/
def ShardMap.len {K V T : Type} [InnerMap K V T] (m : ShardMap K V T) : Nat :=
  (m.shards.map fun s => InnerMap.len (K := K) (V := V) s).sum

/-- `ShardMap::shard`: `DefaultHasher` digest of the key, cast to `usize`
(identity on 64-bit), modulo the shard count. -/
def ShardMap.shard {K V T : Type} (hash : K → Nat) (m : ShardMap K V T)
    (k : K) : Nat :=
  hash k % m.shards.length

/-- `ShardMap::contains_key`: delegate to the shard the key routes to. -/
def ShardMap.contains_key {K V T : Type} [InnerMap K V T] (hash : K → Nat)
    (m : ShardMap K V T) (k : K) : Bool :=
  InnerMap.contains_key (V := V)
    (m.shards.getD (m.shard hash k) (InnerMap.dflt (K := K) (V := V))) k

/-- `ShardMap::get` (Plain strategy): borrowed lookup in the routed shard. -/
def ShardMap.get {K V T : Type} [ImmutableInnerMap K V T] (hash : K → Nat)
    (m : ShardMap K V T) (k : K) : Option V :=
  ImmutableInnerMap.get
    (m.shards.getD (m.shard hash k) (InnerMap.dflt (K := K) (V := V))) k

/-- `ShardMap::get_cloned` (Synchronized strategy): copy-out lookup in the
routed shard. -/
def ShardMap.get_cloned {K V T : Type} [MutableInnerMap K V T] (hash : K → Nat)
    (m : ShardMap K V T) (k : K) : Option V :=
  MutableInnerMap.get
    (m.shards.getD (m.shard hash k) (InnerMap.dflt (K := K) (V := V))) k

/-- `ShardMap::insert`: route, insert into that shard, return the previous
value and the updated container. -/
def ShardMap.insert {K V T : Type} [MutableInnerMap K V T] (hash : K → Nat)
    (m : ShardMap K V T) (k : K) (v : V) : Option V × ShardMap K V T :=
  let idx := m.shard hash k
  let p := MutableInnerMap.insert
    (m.shards.getD idx (InnerMap.dflt (K := K) (V := V))) k v
  (p.1, ⟨m.shards.set idx p.2⟩)

/-- `ShardMap::remove`: route, remove from that shard, return the removed
value and the updated container. -/
def ShardMap.remove {K V T : Type} [MutableInnerMap K V T] (hash : K → Nat)
    (m : ShardMap K V T) (k : K) : Option V × ShardMap K V T :=
  let idx := m.shard hash k
  let p := MutableInnerMap.remove
    (m.shards.getD idx (InnerMap.dflt (K := K) (V := V))) k
  (p.1, ⟨m.shards.set idx p.2⟩)

/-- `ShardMap::clear`: clear every shard in turn. -/
def ShardMap.clear {K V T : Type} [MutableInnerMap K V T]
    (m : ShardMap K V T) : ShardMap K V T :=
  ⟨m.shards.map fun s => MutableInnerMap.clear (K := K) (V := V) s⟩

/-- `impl InnerMap<K, V> for HashMap<K, V>`. -/
instance instInnerHM {K V : Type} [DecidableEq K] : InnerMap K V (HM K V) where
  dflt := ([] : List (K × V))
  is_empty := HM.is_empty
  len := HM.len
  contains_key := HM.contains_key

/-- `impl ImmutableInnerMap<K, V> for HashMap<K, V>`. -/
instance instImmutableHM {K V : Type} [DecidableEq K] :
    ImmutableInnerMap K V (HM K V) where
  get := HM.get

/-- `impl InnerMap<K, V> for Mutex<HashMap<K, V>>`: lock, then delegate. -/
instance instInnerMutex {K V : Type} [DecidableEq K] :
    InnerMap K V (Mutex (HM K V)) where
  dflt := ⟨([] : List (K × V))⟩
  is_empty m := HM.is_empty m.inner
  len m := HM.len m.inner
  contains_key m k := HM.contains_key m.inner k

/-- `impl MutableInnerMap<K, V> for Mutex<HashMap<K, V>>`: lock, then
delegate; `get` clones the value out (`map.get(k).cloned()`). -/
instance instMutableMutex {K V : Type} [DecidableEq K] :
    MutableInnerMap K V (Mutex (HM K V)) where
  get m k := HM.get m.inner k
  insert m k v :=
    let p := HM.insert m.inner k v
    (p.1, ⟨p.2⟩)
  remove m k :=
    let p := HM.remove m.inner k
    (p.1, ⟨p.2⟩)
  clear m := ⟨HM.clear m.inner⟩

/-- `impl From<MutableShardMap<K, V>> for ShardMap<K, V>`: move each lock's
interior table out (`into_inner().unwrap()`), shard by shard, in order. -/
def ShardMap.ofMutable {K V : Type} (m : MutableShardMap K V) :
    PlainShardMap K V :=
  ⟨m.shards.map Mutex.into_inner⟩

/-- Modelled from the spec: the constructor `new(optional shard_count)` of
§6, which the source does not provide (its `new()` takes no argument).
Per the spec, an explicit count is used as given and an omitted count falls
back to the cached default of §4.1. Returns the resulting shard count. -/
def specNewShardCount (requested : Option Nat) (par : Option Nat) : Nat :=
  match requested with
  | some n => n
  | none => default_shard_amount par

/-! ## Laws of the association-list model of `HashMap` -/

/-- The keys stored in a `HashMap` model. -/
def HM.keys {K V : Type} (m : HM K V) : List K :=
  m.map Prod.fst

theorem HM.get_eq_none_iff {K V : Type} [DecidableEq K] (m : HM K V) (k : K) :
    HM.get m k = none ↔ k ∉ HM.keys m := by
  induction m with
  | nil => simp [HM.get, HM.keys]
  | cons p rest ih =>
    obtain ⟨k', v'⟩ := p
    have hcons : HM.keys ((k', v') :: rest) = k' :: HM.keys rest := rfl
    rw [hcons]
    by_cases h : k' = k
    · subst h
      simp [HM.get]
    · have e : HM.get ((k', v') :: rest) k = HM.get rest k := by
        simp [HM.get, h]
      rw [e, ih]
      simp only [List.mem_cons, not_or]
      constructor
      · intro hmem
        exact ⟨fun he => h he.symm, hmem⟩
      · exact fun hp => hp.2

theorem HM.isSome_get_iff {K V : Type} [DecidableEq K] (m : HM K V) (k : K) :
    (HM.get m k).isSome ↔ k ∈ HM.keys m := by
  rw [Option.isSome_iff_ne_none, ne_eq, HM.get_eq_none_iff m k, not_not]

theorem HM.insert_fst {K V : Type} [DecidableEq K] (m : HM K V) (k : K)
    (v : V) : (HM.insert m k v).1 = HM.get m k := by
  induction m with
  | nil => rfl
  | cons p rest ih =>
    obtain ⟨k', v'⟩ := p
    by_cases h : k' = k <;> simp [HM.insert, HM.get, h, ih]

theorem HM.get_insert_self {K V : Type} [DecidableEq K] (m : HM K V) (k : K)
    (v : V) : HM.get (HM.insert m k v).2 k = some v := by
  induction m with
  | nil => simp [HM.insert, HM.get]
  | cons p rest ih =>
    obtain ⟨k', v'⟩ := p
    by_cases h : k' = k <;> simp [HM.insert, HM.get, h, ih]

theorem HM.get_insert_ne {K V : Type} [DecidableEq K] (m : HM K V)
    {k k' : K} (v : V) (hne : k' ≠ k) :
    HM.get (HM.insert m k v).2 k' = HM.get m k' := by
  have hne' : ¬k = k' := fun h => hne h.symm
  induction m with
  | nil => simp [HM.insert, HM.get, hne']
  | cons p rest ih =>
    obtain ⟨k1, v1⟩ := p
    by_cases h : k1 = k
    · subst h
      simp [HM.insert, HM.get, hne']
    · simp [HM.insert, HM.get, h, ih]

theorem HM.len_insert {K V : Type} [DecidableEq K] (m : HM K V) (k : K)
    (v : V) : HM.len (HM.insert m k v).2 =
      if (HM.get m k).isSome then HM.len m else HM.len m + 1 := by
  induction m with
  | nil => simp [HM.insert, HM.get, HM.len]
  | cons p rest ih =>
    obtain ⟨k', v'⟩ := p
    by_cases h : k' = k
    · subst h
      simp [HM.insert, HM.get, HM.len]
    · have ih' : (HM.insert rest k v).2.length =
          if (HM.get rest k).isSome then rest.length else rest.length + 1 := ih
      have e1 : HM.len (HM.insert ((k', v') :: rest) k v).2 =
          (HM.insert rest k v).2.length + 1 := by
        simp [HM.insert, h, HM.len]
      have e2 : HM.get ((k', v') :: rest) k = HM.get rest k := by
        simp [HM.get, h]
      rw [e1, e2, ih']
      by_cases hs : (HM.get rest k).isSome <;> simp [hs, HM.len]

theorem HM.keys_insert {K V : Type} [DecidableEq K] (m : HM K V) (k : K)
    (v : V) : HM.keys (HM.insert m k v).2 =
      if (HM.get m k).isSome then HM.keys m else HM.keys m ++ [k] := by
  induction m with
  | nil => simp [HM.insert, HM.get, HM.keys]
  | cons p rest ih =>
    obtain ⟨k', v'⟩ := p
    by_cases h : k' = k
    · subst h
      simp [HM.insert, HM.get, HM.keys]
    · have ih' : List.map Prod.fst (HM.insert rest k v).2 =
          if (HM.get rest k).isSome then List.map Prod.fst rest
          else List.map Prod.fst rest ++ [k] := ih
      have e1 : HM.keys (HM.insert ((k', v') :: rest) k v).2 =
          k' :: List.map Prod.fst (HM.insert rest k v).2 := by
        simp [HM.insert, h, HM.keys]
      have e2 : HM.get ((k', v') :: rest) k = HM.get rest k := by
        simp [HM.get, h]
      rw [e1, e2, ih']
      by_cases hs : (HM.get rest k).isSome <;> simp [hs, HM.keys]

theorem HM.nodup_keys_insert {K V : Type} [DecidableEq K] (m : HM K V)
    (k : K) (v : V) (h : (HM.keys m).Nodup) :
    (HM.keys (HM.insert m k v).2).Nodup := by
  rw [HM.keys_insert]
  by_cases hs : (HM.get m k).isSome
  · simpa [hs] using h
  · have hk : k ∉ HM.keys m := by
      rw [← HM.get_eq_none_iff, ← Option.not_isSome_iff_eq_none]
      exact hs
    rw [if_neg hs]
    exact List.Nodup.append h (List.nodup_singleton k)
      (fun a ha hb => hk (by rwa [List.mem_singleton.mp hb] at ha))

theorem HM.remove_fst {K V : Type} [DecidableEq K] (m : HM K V) (k : K) :
    (HM.remove m k).1 = HM.get m k := by
  induction m with
  | nil => rfl
  | cons p rest ih =>
    obtain ⟨k', v'⟩ := p
    by_cases h : k' = k <;> simp [HM.remove, HM.get, h, ih]

theorem HM.get_remove_self {K V : Type} [DecidableEq K] (m : HM K V) (k : K)
    (h : (HM.keys m).Nodup) : HM.get (HM.remove m k).2 k = none := by
  induction m with
  | nil => simp [HM.remove, HM.get]
  | cons p rest ih =>
    obtain ⟨k', v'⟩ := p
    have hcons : HM.keys ((k', v') :: rest) = k' :: HM.keys rest := rfl
    rw [hcons, List.nodup_cons] at h
    by_cases hk : k' = k
    · have e : (HM.remove ((k', v') :: rest) k).2 = rest := by
        simp [HM.remove, hk]
      rw [e, HM.get_eq_none_iff]
      rw [hk] at h
      exact h.1
    · have e : (HM.remove ((k', v') :: rest) k).2 =
          (k', v') :: (HM.remove rest k).2 := by
        simp [HM.remove, hk]
      have e2 : HM.get ((k', v') :: (HM.remove rest k).2) k =
          HM.get (HM.remove rest k).2 k := by
        simp [HM.get, hk]
      rw [e, e2]
      exact ih h.2

theorem HM.get_remove_ne {K V : Type} [DecidableEq K] (m : HM K V)
    {k k' : K} (hne : k' ≠ k) :
    HM.get (HM.remove m k).2 k' = HM.get m k' := by
  induction m with
  | nil => simp [HM.remove]
  | cons p rest ih =>
    obtain ⟨k1, v1⟩ := p
    by_cases h : k1 = k
    · have e : (HM.remove ((k1, v1) :: rest) k).2 = rest := by
        simp [HM.remove, h]
      have hne2 : ¬k1 = k' := fun hh => hne (hh.symm.trans h)
      have e2 : HM.get ((k1, v1) :: rest) k' = HM.get rest k' := by
        simp [HM.get, hne2]
      rw [e, e2]
    · simp [HM.remove, HM.get, h, ih]

theorem HM.len_remove {K V : Type} [DecidableEq K] (m : HM K V) (k : K) :
    HM.len (HM.remove m k).2 =
      if (HM.get m k).isSome then HM.len m - 1 else HM.len m := by
  induction m with
  | nil => simp [HM.remove, HM.get, HM.len]
  | cons p rest ih =>
    obtain ⟨k', v'⟩ := p
    by_cases h : k' = k
    · subst h
      simp [HM.remove, HM.get, HM.len]
    · have ih' : (HM.remove rest k).2.length =
          if (HM.get rest k).isSome then rest.length - 1 else rest.length := ih
      have e1 : HM.len (HM.remove ((k', v') :: rest) k).2 =
          (HM.remove rest k).2.length + 1 := by
        simp [HM.remove, h, HM.len]
      have e2 : HM.get ((k', v') :: rest) k = HM.get rest k := by
        simp [HM.get, h]
      rw [e1, e2, ih']
      by_cases hs : (HM.get rest k).isSome
      · have hpos : 0 < rest.length := by
          by_contra hle
          push_neg at hle
          have hnil : rest = [] := List.length_eq_zero.mp (Nat.le_zero.mp hle)
          subst hnil
          simp [HM.get] at hs
        simp only [hs, if_true, HM.len, List.length_cons]
        omega
      · simp [hs, HM.len]

theorem HM.nodup_keys_remove {K V : Type} [DecidableEq K] (m : HM K V)
    (k : K) (h : (HM.keys m).Nodup) : (HM.keys (HM.remove m k).2).Nodup := by
  induction m with
  | nil => simpa [HM.remove] using h
  | cons p rest ih =>
    obtain ⟨k', v'⟩ := p
    have hcons : HM.keys ((k', v') :: rest) = k' :: HM.keys rest := rfl
    rw [hcons, List.nodup_cons] at h
    by_cases hk : k' = k
    · have e : (HM.remove ((k', v') :: rest) k).2 = rest := by
        simp [HM.remove, hk]
      rw [e]
      exact h.2
    · have hmem : k' ∉ HM.keys (HM.remove rest k).2 := by
        intro hmem
        apply h.1
        rw [← HM.isSome_get_iff] at hmem ⊢
        rwa [HM.get_remove_ne rest hk] at hmem
      have e : (HM.remove ((k', v') :: rest) k).2 =
          (k', v') :: (HM.remove rest k).2 := by
        simp [HM.remove, hk]
      have hcons2 : HM.keys ((k', v') :: (HM.remove rest k).2) =
          k' :: HM.keys (HM.remove rest k).2 := rfl
      rw [e, hcons2, List.nodup_cons]
      exact ⟨hmem, ih h.2⟩

theorem HM.remove_of_get_none {K V : Type} [DecidableEq K] (m : HM K V)
    (k : K) (h : HM.get m k = none) : HM.remove m k = (none, m) := by
  induction m with
  | nil => rfl
  | cons p rest ih =>
    obtain ⟨k', v'⟩ := p
    by_cases hk : k' = k
    · simp [HM.get, hk] at h
    · have e : HM.get ((k', v') :: rest) k = HM.get rest k := by
        simp [HM.get, hk]
      rw [e] at h
      simp [HM.remove, hk, ih h]

/-! ## Unfolding laws for the trait instances -/

theorem inner_dflt_hm {K V : Type} [DecidableEq K] :
    (InnerMap.dflt (K := K) (V := V) : HM K V) = [] := rfl

theorem inner_is_empty_hm {K V : Type} [DecidableEq K] (s : HM K V) :
    InnerMap.is_empty (K := K) (V := V) s = HM.is_empty s := rfl

theorem inner_len_hm {K V : Type} [DecidableEq K] (s : HM K V) :
    InnerMap.len (K := K) (V := V) s = HM.len s := rfl

theorem inner_contains_hm {K V : Type} [DecidableEq K] (s : HM K V) (k : K) :
    InnerMap.contains_key (V := V) s k = HM.contains_key s k := rfl

theorem inner_get_hm {K V : Type} [DecidableEq K] (s : HM K V) (k : K) :
    ImmutableInnerMap.get s k = HM.get s k := rfl

theorem inner_dflt_mutex {K V : Type} [DecidableEq K] :
    (InnerMap.dflt (K := K) (V := V) : Mutex (HM K V)) = ⟨[]⟩ := rfl

theorem inner_is_empty_mutex {K V : Type} [DecidableEq K]
    (s : Mutex (HM K V)) :
    InnerMap.is_empty (K := K) (V := V) s = HM.is_empty s.inner := rfl

theorem inner_len_mutex {K V : Type} [DecidableEq K] (s : Mutex (HM K V)) :
    InnerMap.len (K := K) (V := V) s = HM.len s.inner := rfl

theorem inner_contains_mutex {K V : Type} [DecidableEq K] (s : Mutex (HM K V))
    (k : K) : InnerMap.contains_key (V := V) s k =
      HM.contains_key s.inner k := rfl

theorem inner_get_mutex {K V : Type} [DecidableEq K] (s : Mutex (HM K V))
    (k : K) : MutableInnerMap.get s k = HM.get s.inner k := rfl

theorem inner_insert_mutex {K V : Type} [DecidableEq K] (s : Mutex (HM K V))
    (k : K) (v : V) : MutableInnerMap.insert s k v =
      ((HM.insert s.inner k v).1, ⟨(HM.insert s.inner k v).2⟩) := rfl

theorem inner_remove_mutex {K V : Type} [DecidableEq K] (s : Mutex (HM K V))
    (k : K) : MutableInnerMap.remove s k =
      ((HM.remove s.inner k).1, ⟨(HM.remove s.inner k).2⟩) := rfl

theorem inner_clear_mutex {K V : Type} [DecidableEq K] (s : Mutex (HM K V)) :
    MutableInnerMap.clear (K := K) (V := V) s = ⟨[]⟩ := rfl

/-! ## List helpers -/

theorem list_getD_set_self {A : Type} (l : List A) (i : Nat) (a d : A)
    (h : i < l.length) : (l.set i a).getD i d = a := by
  induction l generalizing i with
  | nil => simp at h
  | cons x xs ih =>
    cases i with
    | zero => rfl
    | succ j => exact ih j (by simpa using h)

theorem list_getD_set_ne {A : Type} (l : List A) (i j : Nat) (a d : A)
    (h : i ≠ j) : (l.set i a).getD j d = l.getD j d := by
  induction l generalizing i j with
  | nil => simp [List.set]
  | cons x xs ih =>
    cases i with
    | zero =>
      cases j with
      | zero => exact absurd rfl h
      | succ j' => rfl
    | succ i' =>
      cases j with
      | zero => rfl
      | succ j' => exact ih i' j' fun he => h (by rw [he])

theorem list_set_getD_self {A : Type} (l : List A) (i : Nat) (d : A)
    (h : i < l.length) : l.set i (l.getD i d) = l := by
  induction l generalizing i with
  | nil => simp at h
  | cons x xs ih =>
    cases i with
    | zero => rfl
    | succ j => simpa using ih j (by simpa using h)

theorem list_getD_mem {A : Type} (l : List A) (i : Nat) (d : A)
    (h : i < l.length) : l.getD i d ∈ l := by
  induction l generalizing i with
  | nil => simp at h
  | cons x xs ih =>
    cases i with
    | zero => simp [List.getD]
    | succ j => exact List.mem_cons.mpr (Or.inr (ih j (by simpa using h)))

theorem list_getD_replicate_self {A : Type} (n i : Nat) (a : A) :
    (List.replicate n a).getD i a = a := by
  induction n generalizing i with
  | zero => rfl
  | succ n' ih =>
    cases i with
    | zero => rfl
    | succ j => exact ih j

theorem list_sum_map_set {A : Type} (f : A → Nat) (l : List A) (i : Nat)
    (a d : A) (h : i < l.length) :
    ((l.set i a).map f).sum + f (l.getD i d) = (l.map f).sum + f a := by
  induction l generalizing i with
  | nil => simp at h
  | cons x xs ih =>
    cases i with
    | zero => simp [List.getD, Nat.add_comm, Nat.add_left_comm]
    | succ j =>
      have hgd : (x :: xs).getD (j + 1) d = xs.getD j d := rfl
      have hset : (x :: xs).set (j + 1) a = x :: xs.set j a := rfl
      rw [hset, hgd]
      have := ih j (by simpa using h)
      simp only [List.map_cons, List.sum_cons]
      omega

/-! ## Container-level laws -/

theorem Mutex.inner_mk {A : Type} (x : A) : (Mutex.mk x).inner = x := rfl

theorem ShardMap.shard_lt {K V T : Type} (hash : K → Nat) (m : ShardMap K V T)
    (k : K) (h : 0 < m.shards.length) : m.shard hash k < m.shards.length :=
  Nat.mod_lt _ h

theorem ShardMap.shard_eq_def {K V T : Type} (hash : K → Nat)
    (m : ShardMap K V T) (k : K) :
    m.shard hash k = hash k % m.shards.length := rfl

theorem ShardMap.shard_congr {K V T U : Type} (hash : K → Nat)
    (m1 : ShardMap K V T) (m2 : ShardMap K V U) (k : K)
    (h : m1.shards.length = m2.shards.length) :
    m1.shard hash k = m2.shard hash k := by
  rw [ShardMap.shard_eq_def, ShardMap.shard_eq_def, h]

theorem MutableShardMap.get_cloned_eq {K V : Type} [DecidableEq K]
    (hash : K → Nat) (m : MutableShardMap K V) (k : K) :
    ShardMap.get_cloned hash m k =
      HM.get (m.shards.getD (m.shard hash k) ⟨[]⟩).inner k := rfl

theorem MutableShardMap.contains_key_eq {K V : Type} [DecidableEq K]
    (hash : K → Nat) (m : MutableShardMap K V) (k : K) :
    ShardMap.contains_key hash m k =
      (HM.get (m.shards.getD (m.shard hash k) ⟨[]⟩).inner k).isSome := rfl

theorem MutableShardMap.insert_shards {K V : Type} [DecidableEq K]
    (hash : K → Nat) (m : MutableShardMap K V) (k : K) (v : V) :
    (ShardMap.insert hash m k v).2.shards =
      m.shards.set (m.shard hash k)
        ⟨(HM.insert (m.shards.getD (m.shard hash k) ⟨[]⟩).inner k v).2⟩ := rfl

theorem MutableShardMap.insert_returns_prev {K V : Type} [DecidableEq K]
    (hash : K → Nat) (m : MutableShardMap K V) (k : K) (v : V) :
    (ShardMap.insert hash m k v).1 = ShardMap.get_cloned hash m k := by
  have e : (ShardMap.insert hash m k v).1 =
      (HM.insert (m.shards.getD (m.shard hash k) ⟨[]⟩).inner k v).1 := rfl
  rw [e, HM.insert_fst, MutableShardMap.get_cloned_eq]

theorem MutableShardMap.remove_shards {K V : Type} [DecidableEq K]
    (hash : K → Nat) (m : MutableShardMap K V) (k : K) :
    (ShardMap.remove hash m k).2.shards =
      m.shards.set (m.shard hash k)
        ⟨(HM.remove (m.shards.getD (m.shard hash k) ⟨[]⟩).inner k).2⟩ := rfl

theorem MutableShardMap.remove_returns_prev {K V : Type} [DecidableEq K]
    (hash : K → Nat) (m : MutableShardMap K V) (k : K) :
    (ShardMap.remove hash m k).1 = ShardMap.get_cloned hash m k := by
  have e : (ShardMap.remove hash m k).1 =
      (HM.remove (m.shards.getD (m.shard hash k) ⟨[]⟩).inner k).1 := rfl
  rw [e, HM.remove_fst, MutableShardMap.get_cloned_eq]

theorem MutableShardMap.length_shards_insert {K V : Type} [DecidableEq K]
    (hash : K → Nat) (m : MutableShardMap K V) (k : K) (v : V) :
    (ShardMap.insert hash m k v).2.shards.length = m.shards.length := by
  rw [MutableShardMap.insert_shards, List.length_set]

theorem MutableShardMap.length_shards_remove {K V : Type} [DecidableEq K]
    (hash : K → Nat) (m : MutableShardMap K V) (k : K) :
    (ShardMap.remove hash m k).2.shards.length = m.shards.length := by
  rw [MutableShardMap.remove_shards, List.length_set]

theorem MutableShardMap.shard_insert {K V : Type} [DecidableEq K]
    (hash : K → Nat) (m : MutableShardMap K V) (k : K) (v : V) (k' : K) :
    (ShardMap.insert hash m k v).2.shard hash k' = m.shard hash k' := by
  rw [ShardMap.shard_eq_def, ShardMap.shard_eq_def,
    MutableShardMap.length_shards_insert]

theorem MutableShardMap.shard_remove {K V : Type} [DecidableEq K]
    (hash : K → Nat) (m : MutableShardMap K V) (k : K) (k' : K) :
    (ShardMap.remove hash m k).2.shard hash k' = m.shard hash k' := by
  rw [ShardMap.shard_eq_def, ShardMap.shard_eq_def,
    MutableShardMap.length_shards_remove]

theorem MutableShardMap.get_cloned_insert_self {K V : Type} [DecidableEq K]
    (hash : K → Nat) (m : MutableShardMap K V) (k : K) (v : V)
    (h : 0 < m.shards.length) :
    ShardMap.get_cloned hash (ShardMap.insert hash m k v).2 k = some v := by
  rw [MutableShardMap.get_cloned_eq, MutableShardMap.shard_insert,
    MutableShardMap.insert_shards,
    list_getD_set_self _ _ _ _ (ShardMap.shard_lt hash m k h)]
  exact HM.get_insert_self _ k v

theorem MutableShardMap.get_cloned_insert_ne {K V : Type} [DecidableEq K]
    (hash : K → Nat) (m : MutableShardMap K V) {k k' : K} (v : V)
    (h : 0 < m.shards.length) (hne : k' ≠ k) :
    ShardMap.get_cloned hash (ShardMap.insert hash m k v).2 k' =
      ShardMap.get_cloned hash m k' := by
  rw [MutableShardMap.get_cloned_eq, MutableShardMap.shard_insert,
    MutableShardMap.insert_shards, MutableShardMap.get_cloned_eq]
  by_cases hidx : m.shard hash k' = m.shard hash k
  · rw [hidx, list_getD_set_self _ _ _ _ (ShardMap.shard_lt hash m k h)]
    exact HM.get_insert_ne _ v hne
  · rw [list_getD_set_ne _ _ _ _ _ fun he => hidx he.symm]

theorem MutableShardMap.get_cloned_remove_self {K V : Type} [DecidableEq K]
    (hash : K → Nat) (m : MutableShardMap K V) (k : K)
    (h : 0 < m.shards.length)
    (hnd : ∀ s ∈ m.shards, (HM.keys s.inner).Nodup) :
    ShardMap.get_cloned hash (ShardMap.remove hash m k).2 k = none := by
  rw [MutableShardMap.get_cloned_eq, MutableShardMap.shard_remove,
    MutableShardMap.remove_shards,
    list_getD_set_self _ _ _ _ (ShardMap.shard_lt hash m k h)]
  exact HM.get_remove_self _ k
    (hnd _ (list_getD_mem _ _ _ (ShardMap.shard_lt hash m k h)))

theorem MutableShardMap.get_cloned_remove_ne {K V : Type} [DecidableEq K]
    (hash : K → Nat) (m : MutableShardMap K V) {k k' : K}
    (h : 0 < m.shards.length) (hne : k' ≠ k) :
    ShardMap.get_cloned hash (ShardMap.remove hash m k).2 k' =
      ShardMap.get_cloned hash m k' := by
  rw [MutableShardMap.get_cloned_eq, MutableShardMap.shard_remove,
    MutableShardMap.remove_shards, MutableShardMap.get_cloned_eq]
  by_cases hidx : m.shard hash k' = m.shard hash k
  · rw [hidx, list_getD_set_self _ _ _ _ (ShardMap.shard_lt hash m k h)]
    exact HM.get_remove_ne _ hne
  · rw [list_getD_set_ne _ _ _ _ _ fun he => hidx he.symm]

theorem shardmap_ext {K V T : Type} {m1 m2 : ShardMap K V T}
    (h : m1.shards = m2.shards) : m1 = m2 := by
  cases m1
  cases m2
  cases h
  rfl

theorem list_getD_const {A B : Type} (l : List A) (i : Nat) (b : B) :
    (l.map fun _ => b).getD i b = b := by
  induction l generalizing i with
  | nil => rfl
  | cons x xs ih =>
    cases i with
    | zero => rfl
    | succ j => exact ih j

theorem list_getD_map_inner {A : Type} (l : List (Mutex A)) (i : Nat)
    (d : A) : (l.map Mutex.into_inner).getD i d = (l.getD i ⟨d⟩).inner := by
  induction l generalizing i with
  | nil => rfl
  | cons x xs ih =>
    cases i with
    | zero => rfl
    | succ j => exact ih j

theorem list_getD_of_len_le {A : Type} (l : List A) (i : Nat) (d : A)
    (h : l.length ≤ i) : l.getD i d = d := by
  induction l generalizing i with
  | nil => rfl
  | cons x xs ih =>
    cases i with
    | zero => simp at h
    | succ j => exact ih j (by simpa using h)

theorem HM.length_pos_of_get_isSome {K V : Type} [DecidableEq K]
    (m : HM K V) (k : K) (h : (HM.get m k).isSome) : 0 < m.length := by
  cases m with
  | nil => simp [HM.get] at h
  | cons p rest => simp

theorem MutableShardMap.len_after_insert {K V : Type} [DecidableEq K]
    (hash : K → Nat) (m : MutableShardMap K V) (k : K) (v : V)
    (h : 0 < m.shards.length) :
    ShardMap.len (ShardMap.insert hash m k v).2 =
      if (ShardMap.get_cloned hash m k).isSome then ShardMap.len m
      else ShardMap.len m + 1 := by
  have hkey := list_sum_map_set
      (fun s : Mutex (HM K V) => InnerMap.len (K := K) (V := V) s)
      m.shards (m.shard hash k)
      (⟨(HM.insert (m.shards.getD (m.shard hash k) ⟨[]⟩).inner k v).2⟩ :
        Mutex (HM K V))
      (⟨[]⟩ : Mutex (HM K V)) (ShardMap.shard_lt hash m k h)
  have hins := HM.len_insert (m.shards.getD (m.shard hash k) ⟨[]⟩).inner k v
  simp only [ShardMap.len]
  rw [MutableShardMap.insert_shards, MutableShardMap.get_cloned_eq]
  simp only [inner_len_mutex, Mutex.inner_mk] at hkey ⊢
  by_cases hs : (HM.get (m.shards.getD (m.shard hash k) ⟨[]⟩).inner k).isSome
  · rw [if_pos hs]
    rw [if_pos hs] at hins
    omega
  · rw [if_neg hs]
    rw [if_neg hs] at hins
    omega

theorem MutableShardMap.len_after_remove {K V : Type} [DecidableEq K]
    (hash : K → Nat) (m : MutableShardMap K V) (k : K)
    (h : 0 < m.shards.length) :
    ShardMap.len (ShardMap.remove hash m k).2 =
      if (ShardMap.get_cloned hash m k).isSome then ShardMap.len m - 1
      else ShardMap.len m := by
  have hkey := list_sum_map_set
      (fun s : Mutex (HM K V) => InnerMap.len (K := K) (V := V) s)
      m.shards (m.shard hash k)
      (⟨(HM.remove (m.shards.getD (m.shard hash k) ⟨[]⟩).inner k).2⟩ :
        Mutex (HM K V))
      (⟨[]⟩ : Mutex (HM K V)) (ShardMap.shard_lt hash m k h)
  have hrem := HM.len_remove (m.shards.getD (m.shard hash k) ⟨[]⟩).inner k
  simp only [ShardMap.len]
  rw [MutableShardMap.remove_shards, MutableShardMap.get_cloned_eq]
  simp only [inner_len_mutex, Mutex.inner_mk] at hkey ⊢
  by_cases hs : (HM.get (m.shards.getD (m.shard hash k) ⟨[]⟩).inner k).isSome
  · rw [if_pos hs]
    rw [if_pos hs] at hrem
    have hpos := HM.length_pos_of_get_isSome _ k hs
    have hsum : HM.len (m.shards.getD (m.shard hash k) ⟨[]⟩).inner ≤
        (m.shards.map fun s => HM.len s.inner).sum := by
      have hmem : HM.len (m.shards.getD (m.shard hash k) ⟨[]⟩).inner ∈
          m.shards.map fun s => HM.len s.inner :=
        List.mem_map.mpr ⟨_, list_getD_mem _ _ _ (ShardMap.shard_lt hash m k h),
          rfl⟩
      exact List.single_le_sum (fun x _ => Nat.zero_le x) _ hmem
    have hlenpos : 0 < HM.len (m.shards.getD (m.shard hash k) ⟨[]⟩).inner :=
      hpos
    omega
  · rw [if_neg hs]
    rw [if_neg hs] at hrem
    omega

theorem MutableShardMap.clear_shards {K V : Type} [DecidableEq K]
    (m : MutableShardMap K V) :
    (ShardMap.clear m).shards =
      m.shards.map fun _ => (⟨[]⟩ : Mutex (HM K V)) := rfl

theorem MutableShardMap.len_clear {K V : Type} [DecidableEq K]
    (m : MutableShardMap K V) : ShardMap.len (ShardMap.clear m) = 0 := by
  simp only [ShardMap.len, MutableShardMap.clear_shards, List.map_map]
  have e : ((fun s : Mutex (HM K V) => InnerMap.len (K := K) (V := V) s) ∘
      fun _ : Mutex (HM K V) => (⟨[]⟩ : Mutex (HM K V))) =
        fun _ : Mutex (HM K V) => 0 := rfl
  rw [e]
  induction m.shards with
  | nil => rfl
  | cons x xs ih => rw [List.map_cons, List.sum_cons, ih]

theorem MutableShardMap.is_empty_clear {K V : Type} [DecidableEq K]
    (m : MutableShardMap K V) :
    ShardMap.is_empty (ShardMap.clear m) = true := by
  simp only [ShardMap.is_empty, MutableShardMap.clear_shards,
    List.all_eq_true]
  intro s hs
  rcases List.mem_map.mp hs with ⟨x, _, rfl⟩
  rfl

theorem MutableShardMap.get_cloned_clear {K V : Type} [DecidableEq K]
    (hash : K → Nat) (m : MutableShardMap K V) (k : K) :
    ShardMap.get_cloned hash (ShardMap.clear m) k = none := by
  rw [MutableShardMap.get_cloned_eq]
  have e : (ShardMap.clear m).shards.getD ((ShardMap.clear m).shard hash k)
      ⟨[]⟩ = ⟨[]⟩ := by
    rw [MutableShardMap.clear_shards]
    exact list_getD_const m.shards _ _
  rw [e]
  rfl

theorem MutableShardMap.clear_clear {K V : Type} [DecidableEq K]
    (m : MutableShardMap K V) :
    ShardMap.clear (ShardMap.clear m) = ShardMap.clear m := by
  apply shardmap_ext
  rw [MutableShardMap.clear_shards (ShardMap.clear m),
    MutableShardMap.clear_shards m, List.map_map]
  rfl

theorem MutableShardMap.is_empty_iff_len_eq_zero {K V : Type} [DecidableEq K]
    (m : MutableShardMap K V) :
    ShardMap.is_empty m = true ↔ ShardMap.len m = 0 := by
  simp only [ShardMap.is_empty, ShardMap.len, List.all_eq_true,
    List.sum_eq_zero_iff, List.mem_map, inner_is_empty_mutex,
    inner_len_mutex]
  constructor
  · rintro hall x ⟨s, hs, rfl⟩
    have := hall s hs
    simp only [HM.is_empty, List.isEmpty_iff] at this
    simp [HM.len, this]
  · intro hz s hs
    have := hz (HM.len s.inner) ⟨s, hs, rfl⟩
    simp only [HM.len, List.length_eq_zero] at this
    simp [HM.is_empty, this]

theorem MutableShardMap.nodup_getD {K V : Type} [DecidableEq K]
    (m : MutableShardMap K V) (i : Nat)
    (hnd : ∀ s ∈ m.shards, (HM.keys s.inner).Nodup) :
    (HM.keys (m.shards.getD i ⟨[]⟩).inner).Nodup := by
  by_cases hlt : i < m.shards.length
  · exact hnd _ (list_getD_mem _ _ _ hlt)
  · rw [list_getD_of_len_le _ _ _ (Nat.le_of_not_lt hlt)]
    simp [HM.keys]

theorem MutableShardMap.nodup_insert {K V : Type} [DecidableEq K]
    (hash : K → Nat) (m : MutableShardMap K V) (k : K) (v : V)
    (hnd : ∀ s ∈ m.shards, (HM.keys s.inner).Nodup) :
    ∀ s ∈ (ShardMap.insert hash m k v).2.shards,
      (HM.keys s.inner).Nodup := by
  intro s hs
  rw [MutableShardMap.insert_shards] at hs
  rcases List.mem_or_eq_of_mem_set hs with hmem | heq
  · exact hnd s hmem
  · subst heq
    rw [Mutex.inner_mk]
    exact HM.nodup_keys_insert _ k v (MutableShardMap.nodup_getD m _ hnd)

theorem MutableShardMap.nodup_remove {K V : Type} [DecidableEq K]
    (hash : K → Nat) (m : MutableShardMap K V) (k : K)
    (hnd : ∀ s ∈ m.shards, (HM.keys s.inner).Nodup) :
    ∀ s ∈ (ShardMap.remove hash m k).2.shards,
      (HM.keys s.inner).Nodup := by
  intro s hs
  rw [MutableShardMap.remove_shards] at hs
  rcases List.mem_or_eq_of_mem_set hs with hmem | heq
  · exact hnd s hmem
  · subst heq
    rw [Mutex.inner_mk]
    exact HM.nodup_keys_remove _ k (MutableShardMap.nodup_getD m _ hnd)

theorem default_shard_amount_pos (par : Option Nat) :
    0 < default_shard_amount par :=
  Nat.pos_of_isPowerOfTwo (Nat.isPowerOfTwo_nextPowerOfTwo _)

theorem default_shard_amount_isPowerOfTwo (par : Option Nat) :
    (default_shard_amount par).isPowerOfTwo :=
  Nat.isPowerOfTwo_nextPowerOfTwo _

theorem ShardMap.new_shards_length (K V T : Type) [InnerMap K V T]
    (par : Option Nat) :
    (ShardMap.new K V T par).shards.length = default_shard_amount par := by
  simp [ShardMap.new]

theorem MutableShardMap.new_get_cloned {K V : Type} [DecidableEq K]
    (hash : K → Nat) (par : Option Nat) (k : K) :
    ShardMap.get_cloned hash (ShardMap.new K V (Mutex (HM K V)) par) k =
      none := by
  rw [MutableShardMap.get_cloned_eq]
  have e : (ShardMap.new K V (Mutex (HM K V)) par).shards =
      List.replicate (default_shard_amount par) ⟨[]⟩ := rfl
  rw [e, list_getD_replicate_self]
  rfl

theorem MutableShardMap.new_len {K V : Type} [DecidableEq K]
    (par : Option Nat) :
    ShardMap.len (ShardMap.new K V (Mutex (HM K V)) par) = 0 := by
  have e : (ShardMap.new K V (Mutex (HM K V)) par).shards =
      List.replicate (default_shard_amount par) ⟨[]⟩ := rfl
  simp only [ShardMap.len, e, List.map_replicate, inner_len_mutex,
    Mutex.inner_mk, List.sum_replicate, smul_eq_mul]
  simp [HM.len]

theorem MutableShardMap.new_nodup {K V : Type} [DecidableEq K]
    (par : Option Nat) :
    ∀ s ∈ (ShardMap.new K V (Mutex (HM K V)) par).shards,
      (HM.keys s.inner).Nodup := by
  intro s hs
  have e : (ShardMap.new K V (Mutex (HM K V)) par).shards =
      List.replicate (default_shard_amount par) ⟨[]⟩ := rfl
  rw [e] at hs
  rw [List.eq_of_mem_replicate hs]
  simp [HM.keys]

/-! ## Plain-strategy and conversion laws -/

theorem PlainShardMap.get_eq {K V : Type} [DecidableEq K] (hash : K → Nat)
    (m : PlainShardMap K V) (k : K) :
    ShardMap.get hash m k =
      HM.get (m.shards.getD (m.shard hash k) []) k := rfl

theorem PlainShardMap.contains_key_def {K V : Type} [DecidableEq K]
    (hash : K → Nat) (m : PlainShardMap K V) (k : K) :
    ShardMap.contains_key hash m k =
      (HM.get (m.shards.getD (m.shard hash k) []) k).isSome := rfl

theorem ofMutable_shards {K V : Type} (m : MutableShardMap K V) :
    (ShardMap.ofMutable m).shards = m.shards.map Mutex.into_inner := rfl

theorem ofMutable_shards_length {K V : Type} (m : MutableShardMap K V) :
    (ShardMap.ofMutable m).shards.length = m.shards.length := by
  rw [ofMutable_shards, List.length_map]

theorem ofMutable_shard {K V : Type} (hash : K → Nat)
    (m : MutableShardMap K V) (k : K) :
    (ShardMap.ofMutable m).shard hash k = m.shard hash k :=
  ShardMap.shard_congr hash _ _ k (ofMutable_shards_length m)

theorem ofMutable_get {K V : Type} [DecidableEq K] (hash : K → Nat)
    (m : MutableShardMap K V) (k : K) :
    ShardMap.get hash (ShardMap.ofMutable m) k =
      ShardMap.get_cloned hash m k := by
  rw [PlainShardMap.get_eq, MutableShardMap.get_cloned_eq, ofMutable_shard,
    ofMutable_shards, list_getD_map_inner]

theorem ofMutable_len {K V : Type} [DecidableEq K]
    (m : MutableShardMap K V) :
    ShardMap.len (ShardMap.ofMutable m) = ShardMap.len m := by
  simp only [ShardMap.len, ofMutable_shards, List.map_map]
  rfl

theorem ofMutable_contains_key {K V : Type} [DecidableEq K] (hash : K → Nat)
    (m : MutableShardMap K V) (k : K) :
    ShardMap.contains_key hash (ShardMap.ofMutable m) k =
      ShardMap.contains_key hash m k := by
  rw [PlainShardMap.contains_key_def, MutableShardMap.contains_key_eq,
    ofMutable_shard, ofMutable_shards, list_getD_map_inner]

/-! ## Iterated insertion and removal (scenario scaffolding for the
cardinality property) -/

/-- Insert every key of `ks` in order, with value `f k` for key `k`. -/
def insertAll {K V : Type} [DecidableEq K] (hash : K → Nat) (f : K → V)
    (m : MutableShardMap K V) (ks : List K) : MutableShardMap K V :=
  ks.foldl (fun acc k => (ShardMap.insert hash acc k (f k)).2) m

/-- Remove every key of `ks` in order. -/
def removeAll {K V : Type} [DecidableEq K] (hash : K → Nat)
    (m : MutableShardMap K V) (ks : List K) : MutableShardMap K V :=
  ks.foldl (fun acc k => (ShardMap.remove hash acc k).2) m

/-- Well-formedness of a Synchronized container state: at least one shard,
and no duplicated key inside any shard (as `HashMap` guarantees). -/
def MSMWF {K V : Type} [DecidableEq K] (m : MutableShardMap K V) : Prop :=
  0 < m.shards.length ∧ ∀ s ∈ m.shards, (HM.keys s.inner).Nodup

theorem insertAll_nil {K V : Type} [DecidableEq K] (hash : K → Nat)
    (f : K → V) (m : MutableShardMap K V) : insertAll hash f m [] = m := rfl

theorem insertAll_cons {K V : Type} [DecidableEq K] (hash : K → Nat)
    (f : K → V) (m : MutableShardMap K V) (k : K) (ks : List K) :
    insertAll hash f m (k :: ks) =
      insertAll hash f (ShardMap.insert hash m k (f k)).2 ks := rfl

theorem removeAll_nil {K V : Type} [DecidableEq K] (hash : K → Nat)
    (m : MutableShardMap K V) : removeAll hash m [] = m := rfl

theorem removeAll_cons {K V : Type} [DecidableEq K] (hash : K → Nat)
    (m : MutableShardMap K V) (k : K) (ks : List K) :
    removeAll hash m (k :: ks) =
      removeAll hash (ShardMap.remove hash m k).2 ks := rfl

theorem MutableShardMap.len_pos_of_get_isSome {K V : Type} [DecidableEq K]
    (hash : K → Nat) (m : MutableShardMap K V) (k : K)
    (h : 0 < m.shards.length)
    (hs : (ShardMap.get_cloned hash m k).isSome) : 0 < ShardMap.len m := by
  rw [MutableShardMap.get_cloned_eq] at hs
  have hpos := HM.length_pos_of_get_isSome _ _ hs
  have hmem : HM.len (m.shards.getD (m.shard hash k) ⟨[]⟩).inner ∈
      m.shards.map fun s => HM.len s.inner :=
    List.mem_map.mpr ⟨_, list_getD_mem _ _ _ (ShardMap.shard_lt hash m k h),
      rfl⟩
  have hle := List.single_le_sum (fun x (_ : x ∈ m.shards.map fun s =>
    HM.len s.inner) => Nat.zero_le x) _ hmem
  have e : ShardMap.len m = (m.shards.map fun s => HM.len s.inner).sum := by
    simp only [ShardMap.len, inner_len_mutex]
  rw [e]
  have : 0 < HM.len (m.shards.getD (m.shard hash k) ⟨[]⟩).inner := hpos
  omega

theorem MSMWF.insert {K V : Type} [DecidableEq K] (hash : K → Nat)
    {m : MutableShardMap K V} (k : K) (v : V) (h : MSMWF m) :
    MSMWF (ShardMap.insert hash m k v).2 :=
  ⟨by rw [MutableShardMap.length_shards_insert]; exact h.1,
   MutableShardMap.nodup_insert hash m k v h.2⟩

theorem MSMWF.remove {K V : Type} [DecidableEq K] (hash : K → Nat)
    {m : MutableShardMap K V} (k : K) (h : MSMWF m) :
    MSMWF (ShardMap.remove hash m k).2 :=
  ⟨by rw [MutableShardMap.length_shards_remove]; exact h.1,
   MutableShardMap.nodup_remove hash m k h.2⟩

theorem insertAll_props {K V : Type} [DecidableEq K] (hash : K → Nat)
    (f : K → V) (ks : List K) :
    ∀ m : MutableShardMap K V, MSMWF m → ks.Nodup →
      (∀ k ∈ ks, ShardMap.get_cloned hash m k = none) →
      MSMWF (insertAll hash f m ks) ∧
      ShardMap.len (insertAll hash f m ks) = ShardMap.len m + ks.length ∧
      (∀ k', k' ∉ ks →
        ShardMap.get_cloned hash (insertAll hash f m ks) k' =
          ShardMap.get_cloned hash m k') ∧
      (∀ k ∈ ks,
        ShardMap.get_cloned hash (insertAll hash f m ks) k = some (f k)) := by
  induction ks with
  | nil =>
    intro m hwf _ _
    exact ⟨hwf, by simp [insertAll_nil], fun k' _ => rfl, by simp⟩
  | cons k ks ih =>
    intro m hwf hnd habs
    have hk_abs : ShardMap.get_cloned hash m k = none :=
      habs k (List.mem_cons_self _ _)
    have hk_notin : k ∉ ks := (List.nodup_cons.mp hnd).1
    have hnd' : ks.Nodup := (List.nodup_cons.mp hnd).2
    have hwf1 : MSMWF (ShardMap.insert hash m k (f k)).2 :=
      MSMWF.insert hash k (f k) hwf
    have habs1 : ∀ k' ∈ ks,
        ShardMap.get_cloned hash (ShardMap.insert hash m k (f k)).2 k' =
          none := by
      intro k' hk'
      have hne : k' ≠ k := fun he => hk_notin (he ▸ hk')
      rw [MutableShardMap.get_cloned_insert_ne hash m (f k) hwf.1 hne]
      exact habs k' (List.mem_cons_of_mem _ hk')
    obtain ⟨hwfN, hlenN, hframeN, hsomeN⟩ := ih _ hwf1 hnd' habs1
    refine ⟨by rwa [insertAll_cons], ?_, ?_, ?_⟩
    · rw [insertAll_cons, hlenN,
        MutableShardMap.len_after_insert hash m k (f k) hwf.1, hk_abs]
      simp [List.length_cons]
      omega
    · intro k' hk'
      have hne : k' ≠ k := fun he => hk' (he ▸ List.mem_cons_self _ _)
      have hnotin : k' ∉ ks := fun hm => hk' (List.mem_cons_of_mem _ hm)
      rw [insertAll_cons, hframeN k' hnotin,
        MutableShardMap.get_cloned_insert_ne hash m (f k) hwf.1 hne]
    · intro k' hk'
      rcases List.mem_cons.mp hk' with rfl | hmem
      · rw [insertAll_cons, hframeN k' hk_notin,
          MutableShardMap.get_cloned_insert_self hash m k' (f k') hwf.1]
      · rw [insertAll_cons]
        exact hsomeN k' hmem

theorem removeAll_props {K V : Type} [DecidableEq K] (hash : K → Nat)
    (ks : List K) :
    ∀ m : MutableShardMap K V, MSMWF m → ks.Nodup →
      (∀ k ∈ ks, (ShardMap.get_cloned hash m k).isSome) →
      MSMWF (removeAll hash m ks) ∧
      ShardMap.len (removeAll hash m ks) + ks.length = ShardMap.len m ∧
      (∀ k', k' ∉ ks →
        ShardMap.get_cloned hash (removeAll hash m ks) k' =
          ShardMap.get_cloned hash m k') ∧
      (∀ k ∈ ks, ShardMap.get_cloned hash (removeAll hash m ks) k = none) := by
  induction ks with
  | nil =>
    intro m hwf _ _
    exact ⟨hwf, by simp [removeAll_nil], fun k' _ => rfl, by simp⟩
  | cons k ks ih =>
    intro m hwf hnd hpres
    have hk_some : (ShardMap.get_cloned hash m k).isSome :=
      hpres k (List.mem_cons_self _ _)
    have hk_notin : k ∉ ks := (List.nodup_cons.mp hnd).1
    have hnd' : ks.Nodup := (List.nodup_cons.mp hnd).2
    have hwf1 : MSMWF (ShardMap.remove hash m k).2 := MSMWF.remove hash k hwf
    have hpres1 : ∀ k' ∈ ks,
        (ShardMap.get_cloned hash (ShardMap.remove hash m k).2 k').isSome := by
      intro k' hk'
      have hne : k' ≠ k := fun he => hk_notin (he ▸ hk')
      rw [MutableShardMap.get_cloned_remove_ne hash m hwf.1 hne]
      exact hpres k' (List.mem_cons_of_mem _ hk')
    obtain ⟨hwfN, hlenN, hframeN, hnoneN⟩ := ih _ hwf1 hnd' hpres1
    have hlen1 : ShardMap.len (ShardMap.remove hash m k).2 + 1 =
        ShardMap.len m := by
      rw [MutableShardMap.len_after_remove hash m k hwf.1, if_pos hk_some]
      have := MutableShardMap.len_pos_of_get_isSome hash m k hwf.1 hk_some
      omega
    refine ⟨by rwa [removeAll_cons], ?_, ?_, ?_⟩
    · rw [removeAll_cons]
      simp only [List.length_cons]
      omega
    · intro k' hk'
      have hne : k' ≠ k := fun he => hk' (he ▸ List.mem_cons_self _ _)
      have hnotin : k' ∉ ks := fun hm => hk' (List.mem_cons_of_mem _ hm)
      rw [removeAll_cons, hframeN k' hnotin,
        MutableShardMap.get_cloned_remove_ne hash m hwf.1 hne]
    · intro k' hk'
      rcases List.mem_cons.mp hk' with rfl | hmem
      · rw [removeAll_cons, hframeN k' hk_notin,
          MutableShardMap.get_cloned_remove_self hash m k' hwf.1 hwf.2]
      · rw [removeAll_cons]
        exact hnoneN k' hmem

/-! ## The claims -/

/-- C1: on a Synchronized container with at least one shard, after
`insert(k, v1)` then `insert(k, v2)`, `get_cloned k` returns `v2` and the
second insert returns `some v1`; in general `insert` returns the prior
value for the key, which exists exactly when the key already existed. -/
theorem claimC1 {K V : Type} [DecidableEq K] (hash : K → Nat)
    (m : MutableShardMap K V) (k : K) (v1 v2 : V)
    (h : 0 < m.shards.length) :
    (ShardMap.insert hash (ShardMap.insert hash m k v1).2 k v2).1 =
      some v1 ∧
    ShardMap.get_cloned hash
      (ShardMap.insert hash (ShardMap.insert hash m k v1).2 k v2).2 k =
      some v2 ∧
    (ShardMap.insert hash m k v1).1 = ShardMap.get_cloned hash m k ∧
    ((ShardMap.insert hash m k v1).1).isSome =
      ShardMap.contains_key hash m k := by
  have h1 : 0 < (ShardMap.insert hash m k v1).2.shards.length := by
    rw [MutableShardMap.length_shards_insert]
    exact h
  refine ⟨?_, ?_, ?_, ?_⟩
  · rw [MutableShardMap.insert_returns_prev]
    exact MutableShardMap.get_cloned_insert_self hash m k v1 h
  · exact MutableShardMap.get_cloned_insert_self hash _ k v2 h1
  · exact MutableShardMap.insert_returns_prev hash m k v1
  · rw [MutableShardMap.insert_returns_prev, MutableShardMap.get_cloned_eq,
      MutableShardMap.contains_key_eq]

/-- Witness for C1: a concrete two-shard Synchronized container. -/
theorem claimC1_witness :
    0 < (⟨[⟨[]⟩, ⟨[]⟩]⟩ : MutableShardMap Nat Nat).shards.length ∧
    (ShardMap.insert (fun n => n)
        (ShardMap.insert (fun n => n)
          (⟨[⟨[]⟩, ⟨[]⟩]⟩ : MutableShardMap Nat Nat) 5 1).2 5 2).1 =
      some 1 ∧
    ShardMap.get_cloned (fun n => n)
      (ShardMap.insert (fun n => n)
        (ShardMap.insert (fun n => n)
          (⟨[⟨[]⟩, ⟨[]⟩]⟩ : MutableShardMap Nat Nat) 5 1).2 5 2).2 5 =
      some 2 ∧
    (ShardMap.insert (fun n => n)
      (⟨[⟨[]⟩, ⟨[]⟩]⟩ : MutableShardMap Nat Nat) 5 1).1 =
      ShardMap.get_cloned (fun n => n)
        (⟨[⟨[]⟩, ⟨[]⟩]⟩ : MutableShardMap Nat Nat) 5 ∧
    ((ShardMap.insert (fun n => n)
        (⟨[⟨[]⟩, ⟨[]⟩]⟩ : MutableShardMap Nat Nat) 5 1).1).isSome =
      ShardMap.contains_key (fun n => n)
        (⟨[⟨[]⟩, ⟨[]⟩]⟩ : MutableShardMap Nat Nat) 5 :=
  ⟨by decide, claimC1 (fun n => n) ⟨[⟨[]⟩, ⟨[]⟩]⟩ 5 1 2 (by decide)⟩

/-- C2: converting a Synchronized container into a Plain one keeps the
shard count, moves each shard's interior table to the same shard index
unchanged (no re-hash, no re-insert), preserves `len`, and preserves every
lookup (`get` on the result equals `get_cloned` on the source). -/
theorem claimC2 {K V : Type} [DecidableEq K] (hash : K → Nat)
    (m : MutableShardMap K V) :
    (ShardMap.ofMutable m).shards.length = m.shards.length ∧
    (∀ i : Nat, (ShardMap.ofMutable m).shards.getD i [] =
      (m.shards.getD i ⟨[]⟩).inner) ∧
    ShardMap.len (ShardMap.ofMutable m) = ShardMap.len m ∧
    (∀ k : K, ShardMap.get hash (ShardMap.ofMutable m) k =
      ShardMap.get_cloned hash m k) :=
  ⟨ofMutable_shards_length m,
   fun i => by rw [ofMutable_shards, list_getD_map_inner],
   ofMutable_len m,
   fun k => ofMutable_get hash m k⟩

/-- Witness for C2: a concrete two-shard container with one entry per
shard. -/
theorem claimC2_witness :
    (ShardMap.ofMutable
        (⟨[⟨[(0, 1)]⟩, ⟨[(1, 2)]⟩]⟩ : MutableShardMap Nat Nat)).shards.length =
      (⟨[⟨[(0, 1)]⟩, ⟨[(1, 2)]⟩]⟩ : MutableShardMap Nat Nat).shards.length ∧
    (∀ i : Nat, (ShardMap.ofMutable
        (⟨[⟨[(0, 1)]⟩, ⟨[(1, 2)]⟩]⟩ : MutableShardMap Nat Nat)).shards.getD i [] =
      ((⟨[⟨[(0, 1)]⟩, ⟨[(1, 2)]⟩]⟩ :
        MutableShardMap Nat Nat).shards.getD i ⟨[]⟩).inner) ∧
    ShardMap.len (ShardMap.ofMutable
        (⟨[⟨[(0, 1)]⟩, ⟨[(1, 2)]⟩]⟩ : MutableShardMap Nat Nat)) =
      ShardMap.len (⟨[⟨[(0, 1)]⟩, ⟨[(1, 2)]⟩]⟩ : MutableShardMap Nat Nat) ∧
    (∀ k : Nat, ShardMap.get (fun n => n) (ShardMap.ofMutable
        (⟨[⟨[(0, 1)]⟩, ⟨[(1, 2)]⟩]⟩ : MutableShardMap Nat Nat)) k =
      ShardMap.get_cloned (fun n => n)
        (⟨[⟨[(0, 1)]⟩, ⟨[(1, 2)]⟩]⟩ : MutableShardMap Nat Nat) k) :=
  claimC2 (fun n => n) ⟨[⟨[(0, 1)]⟩, ⟨[(1, 2)]⟩]⟩

/-- C3: the shard index for a key is `hash(k) mod shard_count`, lies in
`[0, shard_count)` when the count is positive, and agrees between a Plain
and a Synchronized instance with the same shard count (and across repeated
calls, the router being a pure function of the key and the count). -/
theorem claimC3 {K V : Type} (hash : K → Nat) (p : PlainShardMap K V)
    (s : MutableShardMap K V) (k : K) (n : Nat)
    (hp : p.shards.length = n) (hs : s.shards.length = n) (hn : 0 < n) :
    p.shard hash k = hash k % n ∧ p.shard hash k < n ∧
    p.shard hash k = s.shard hash k := by
  refine ⟨?_, ?_, ?_⟩
  · rw [ShardMap.shard_eq_def, hp]
  · rw [ShardMap.shard_eq_def, hp]
    exact Nat.mod_lt _ hn
  · exact ShardMap.shard_congr hash p s k (hp.trans hs.symm)

/-- Witness for C3: concrete two-shard Plain and Synchronized instances. -/
theorem claimC3_witness :
    (⟨[[], []]⟩ : PlainShardMap Nat Nat).shards.length = 2 ∧
    (⟨[⟨[]⟩, ⟨[]⟩]⟩ : MutableShardMap Nat Nat).shards.length = 2 ∧
    0 < 2 ∧
    ((⟨[[], []]⟩ : PlainShardMap Nat Nat).shard (fun n => n) 3 = 3 % 2 ∧
     (⟨[[], []]⟩ : PlainShardMap Nat Nat).shard (fun n => n) 3 < 2 ∧
     (⟨[[], []]⟩ : PlainShardMap Nat Nat).shard (fun n => n) 3 =
       (⟨[⟨[]⟩, ⟨[]⟩]⟩ : MutableShardMap Nat Nat).shard (fun n => n) 3) :=
  ⟨by decide, by decide, by decide,
   claimC3 (fun n => n) ⟨[[], []]⟩ ⟨[⟨[]⟩, ⟨[]⟩]⟩ 3 2 (by decide) (by decide)
     (by decide)⟩

/-- C4 counterexample: the spec's constructor `new(optional shard_count)`
(modelled by `specNewShardCount`) would honour an explicit count — 2 shards
when 2 are requested at parallelism 1 — but the source constructor takes no
shard-count argument at all and always yields the cached default, 4 shards
at parallelism 1, so no construction with an explicit count exists. -/
theorem claimC4_counterexample :
    specNewShardCount (some 2) (some 1) = 2 ∧
    (ShardMap.new Nat Nat (Mutex (HM Nat Nat)) (some 1)).shards.length = 4 ∧
    default_shard_amount (some 1) = 4 := by
  refine ⟨rfl, ?_, ?_⟩
  · rw [ShardMap.new_shards_length]
    simp [default_shard_amount, Nat.nextPowerOfTwo, Nat.nextPowerOfTwo.go]
  · simp [default_shard_amount, Nat.nextPowerOfTwo, Nat.nextPowerOfTwo.go]

/-- C4 (amended): construction takes no shard-count argument (`new()` has
no parameter); every container built by `new` has the cached default shard
count `next_power_of_two(4 × max(1, available_hardware_parallelism))`,
which — the `OnceLock` making it a constant function of the process
environment — is reused by every such construction. -/
theorem claimC4_amended {K V T : Type} [InnerMap K V T] (par : Option Nat)
    (h : ∀ n, par = some n → 0 < n) :
    (ShardMap.new K V T par).shards.length =
      Nat.nextPowerOfTwo (4 * max 1 (par.getD 1)) := by
  rw [ShardMap.new_shards_length]
  unfold default_shard_amount
  congr 1
  cases par with
  | none => rfl
  | some n =>
    have hn := h n rfl
    simp only [Option.getD_some]
    have hmax : max 1 n = n := Nat.max_eq_right hn
    rw [hmax]
    omega

/-- Witness for C4 (amended) at parallelism 2. -/
theorem claimC4_witness :
    (∀ n : Nat, (some 2 : Option Nat) = some n → 0 < n) ∧
    (ShardMap.new Nat Nat (HM Nat Nat) (some 2)).shards.length =
      Nat.nextPowerOfTwo (4 * max 1 ((some 2 : Option Nat).getD 1)) :=
  ⟨fun n hn => by cases Option.some.inj hn; decide,
   claimC4_amended (some 2) fun n hn => by cases Option.some.inj hn; decide⟩

/-- C5: the shard count of a freshly built container (either strategy) is
positive and a power of two, and the shard count is left unchanged by
insert, remove, clear, and the Synchronized-to-Plain conversion (the
read-only queries are pure functions in this embedding and cannot modify
the container at all). -/
theorem claimC5 {K V T : Type} [DecidableEq K] [InnerMap K V T]
    (hash : K → Nat) (par : Option Nat) (m : MutableShardMap K V) (k : K)
    (v : V) :
    0 < (ShardMap.new K V T par).shards.length ∧
    ((ShardMap.new K V T par).shards.length).isPowerOfTwo ∧
    (ShardMap.insert hash m k v).2.shards.length = m.shards.length ∧
    (ShardMap.remove hash m k).2.shards.length = m.shards.length ∧
    (ShardMap.clear m).shards.length = m.shards.length ∧
    (ShardMap.ofMutable m).shards.length = m.shards.length := by
  refine ⟨?_, ?_, ?_, ?_, ?_, ?_⟩
  · rw [ShardMap.new_shards_length]
    exact default_shard_amount_pos par
  · rw [ShardMap.new_shards_length]
    exact default_shard_amount_isPowerOfTwo par
  · exact MutableShardMap.length_shards_insert hash m k v
  · exact MutableShardMap.length_shards_remove hash m k
  · rw [MutableShardMap.clear_shards, List.length_map]
  · exact ofMutable_shards_length m

/-- Witness for C5 at a concrete one-shard container (Plain `new`). -/
theorem claimC5_witness :
    0 < (ShardMap.new Nat Nat (HM Nat Nat) (some 1)).shards.length ∧
    ((ShardMap.new Nat Nat (HM Nat Nat) (some 1)).shards.length).isPowerOfTwo ∧
    (ShardMap.insert (fun n => n)
      (⟨[⟨[(0, 1)]⟩]⟩ : MutableShardMap Nat Nat) 0 5).2.shards.length =
      (⟨[⟨[(0, 1)]⟩]⟩ : MutableShardMap Nat Nat).shards.length ∧
    (ShardMap.remove (fun n => n)
      (⟨[⟨[(0, 1)]⟩]⟩ : MutableShardMap Nat Nat) 0).2.shards.length =
      (⟨[⟨[(0, 1)]⟩]⟩ : MutableShardMap Nat Nat).shards.length ∧
    (ShardMap.clear
      (⟨[⟨[(0, 1)]⟩]⟩ : MutableShardMap Nat Nat)).shards.length =
      (⟨[⟨[(0, 1)]⟩]⟩ : MutableShardMap Nat Nat).shards.length ∧
    (ShardMap.ofMutable
      (⟨[⟨[(0, 1)]⟩]⟩ : MutableShardMap Nat Nat)).shards.length =
      (⟨[⟨[(0, 1)]⟩]⟩ : MutableShardMap Nat Nat).shards.length :=
  claimC5 (fun n => n) (some 1) ⟨[⟨[(0, 1)]⟩]⟩ 0 5

/-- C6: starting from a freshly constructed (empty) Synchronized container,
inserting N distinct keys gives `len = N` and (for N ≥ 1)
`is_empty = false`; removing all N keys afterwards gives `len = 0` and
`is_empty = true`.  Container `len` is by definition the sum of the shard
lengths and `is_empty` holds iff every shard is empty. -/
theorem claimC6 {K V : Type} [DecidableEq K] (hash : K → Nat) (f : K → V)
    (par : Option Nat) (ks : List K) (hnd : ks.Nodup) :
    ShardMap.len
      (insertAll hash f (ShardMap.new K V (Mutex (HM K V)) par) ks) =
      ks.length ∧
    (ks ≠ [] → ShardMap.is_empty
      (insertAll hash f (ShardMap.new K V (Mutex (HM K V)) par) ks) =
      false) ∧
    ShardMap.len (removeAll hash
      (insertAll hash f (ShardMap.new K V (Mutex (HM K V)) par) ks) ks) =
      0 ∧
    ShardMap.is_empty (removeAll hash
      (insertAll hash f (ShardMap.new K V (Mutex (HM K V)) par) ks) ks) =
      true := by
  have hwf0 : MSMWF (ShardMap.new K V (Mutex (HM K V)) par) :=
    ⟨by rw [ShardMap.new_shards_length]; exact default_shard_amount_pos par,
     MutableShardMap.new_nodup par⟩
  have habs0 : ∀ k ∈ ks,
      ShardMap.get_cloned hash (ShardMap.new K V (Mutex (HM K V)) par) k =
        none :=
    fun k _ => MutableShardMap.new_get_cloned hash par k
  obtain ⟨hwfI, hlenI, _, hsomeI⟩ :=
    insertAll_props hash f ks _ hwf0 hnd habs0
  have hlenI' : ShardMap.len
      (insertAll hash f (ShardMap.new K V (Mutex (HM K V)) par) ks) =
      ks.length := by
    rw [hlenI, MutableShardMap.new_len]
    omega
  have hpresI : ∀ k ∈ ks, (ShardMap.get_cloned hash
      (insertAll hash f (ShardMap.new K V (Mutex (HM K V)) par) ks)
      k).isSome := by
    intro k hk
    rw [hsomeI k hk]
    rfl
  obtain ⟨_, hlenR, _, _⟩ := removeAll_props hash ks _ hwfI hnd hpresI
  have hlenR' : ShardMap.len (removeAll hash
      (insertAll hash f (ShardMap.new K V (Mutex (HM K V)) par) ks) ks) =
      0 := by
    rw [hlenI'] at hlenR
    omega
  refine ⟨hlenI', ?_, hlenR', ?_⟩
  · intro hne
    cases hb : ShardMap.is_empty
        (insertAll hash f (ShardMap.new K V (Mutex (HM K V)) par) ks) with
    | false => rfl
    | true =>
      exfalso
      have hz := (MutableShardMap.is_empty_iff_len_eq_zero _).mp hb
      rw [hlenI'] at hz
      exact hne (List.length_eq_zero.mp hz)
  · exact (MutableShardMap.is_empty_iff_len_eq_zero _).mpr hlenR'

/-- Witness for C6: three distinct keys into a fresh container. -/
theorem claimC6_witness :
    ([0, 1, 2] : List Nat).Nodup ∧
    (ShardMap.len (insertAll (fun n => n) (fun n => n * 2)
        (ShardMap.new Nat Nat (Mutex (HM Nat Nat)) (some 1)) [0, 1, 2]) =
      ([0, 1, 2] : List Nat).length ∧
    (([0, 1, 2] : List Nat) ≠ [] → ShardMap.is_empty
      (insertAll (fun n => n) (fun n => n * 2)
        (ShardMap.new Nat Nat (Mutex (HM Nat Nat)) (some 1)) [0, 1, 2]) =
      false) ∧
    ShardMap.len (removeAll (fun n => n)
      (insertAll (fun n => n) (fun n => n * 2)
        (ShardMap.new Nat Nat (Mutex (HM Nat Nat)) (some 1)) [0, 1, 2])
      [0, 1, 2]) = 0 ∧
    ShardMap.is_empty (removeAll (fun n => n)
      (insertAll (fun n => n) (fun n => n * 2)
        (ShardMap.new Nat Nat (Mutex (HM Nat Nat)) (some 1)) [0, 1, 2])
      [0, 1, 2]) = true) :=
  ⟨by decide,
   claimC6 (fun n => n) (fun n => n * 2) (some 1) [0, 1, 2] (by decide)⟩

/-- C7: removing an absent key from a Synchronized container returns
`none` (an explicit no-value result, not an error) and leaves the whole
container state — hence `len` — unchanged. -/
theorem claimC7 {K V : Type} [DecidableEq K] (hash : K → Nat)
    (m : MutableShardMap K V) (k : K) (h : 0 < m.shards.length)
    (habs : ShardMap.contains_key hash m k = false) :
    ShardMap.remove hash m k = (none, m) ∧
    ShardMap.len (ShardMap.remove hash m k).2 = ShardMap.len m := by
  have hnone : HM.get (m.shards.getD (m.shard hash k) ⟨[]⟩).inner k =
      none := by
    rw [MutableShardMap.contains_key_eq] at habs
    cases hg : HM.get (m.shards.getD (m.shard hash k) ⟨[]⟩).inner k with
    | none => rfl
    | some v =>
      rw [hg] at habs
      simp at habs
  have hrem := HM.remove_of_get_none _ k hnone
  have hrem2 : (HM.remove (m.shards.getD (m.shard hash k) ⟨[]⟩).inner k).2 =
      (m.shards.getD (m.shard hash k) ⟨[]⟩).inner := by
    rw [hrem]
  have hfst : (ShardMap.remove hash m k).1 = none := by
    rw [MutableShardMap.remove_returns_prev, MutableShardMap.get_cloned_eq]
    exact hnone
  have hsnd : (ShardMap.remove hash m k).2 = m := by
    apply shardmap_ext
    rw [MutableShardMap.remove_shards, hrem2]
    rw [show (⟨(m.shards.getD (m.shard hash k) ⟨[]⟩).inner⟩ :
        Mutex (HM K V)) = m.shards.getD (m.shard hash k) ⟨[]⟩ from rfl]
    exact list_set_getD_self _ _ _ (ShardMap.shard_lt hash m k h)
  refine ⟨?_, by rw [hsnd]⟩
  calc ShardMap.remove hash m k
      = ((ShardMap.remove hash m k).1, (ShardMap.remove hash m k).2) := rfl
    _ = (none, m) := by rw [hfst, hsnd]

/-- Witness for C7: key 1 routes to the empty second shard. -/
theorem claimC7_witness :
    0 < (⟨[⟨[(0, 7)]⟩, ⟨[]⟩]⟩ : MutableShardMap Nat Nat).shards.length ∧
    ShardMap.contains_key (fun n => n)
      (⟨[⟨[(0, 7)]⟩, ⟨[]⟩]⟩ : MutableShardMap Nat Nat) 1 = false ∧
    (ShardMap.remove (fun n => n)
        (⟨[⟨[(0, 7)]⟩, ⟨[]⟩]⟩ : MutableShardMap Nat Nat) 1 =
      (none, (⟨[⟨[(0, 7)]⟩, ⟨[]⟩]⟩ : MutableShardMap Nat Nat)) ∧
    ShardMap.len (ShardMap.remove (fun n => n)
        (⟨[⟨[(0, 7)]⟩, ⟨[]⟩]⟩ : MutableShardMap Nat Nat) 1).2 =
      ShardMap.len (⟨[⟨[(0, 7)]⟩, ⟨[]⟩]⟩ : MutableShardMap Nat Nat)) :=
  ⟨by decide, by decide,
   claimC7 (fun n => n) ⟨[⟨[(0, 7)]⟩, ⟨[]⟩]⟩ 1 (by decide) (by decide)⟩

/-- C8: clearing a Synchronized container leaves it empty (`len = 0`,
`is_empty`, every key absent), clearing twice leaves it empty both times
with no failure, and clear is idempotent. -/
theorem claimC8 {K V : Type} [DecidableEq K] (hash : K → Nat)
    (m : MutableShardMap K V) (k : K) :
    ShardMap.len (ShardMap.clear m) = 0 ∧
    ShardMap.is_empty (ShardMap.clear m) = true ∧
    ShardMap.get_cloned hash (ShardMap.clear m) k = none ∧
    ShardMap.len (ShardMap.clear (ShardMap.clear m)) = 0 ∧
    ShardMap.is_empty (ShardMap.clear (ShardMap.clear m)) = true ∧
    ShardMap.clear (ShardMap.clear m) = ShardMap.clear m :=
  ⟨MutableShardMap.len_clear m, MutableShardMap.is_empty_clear m,
   MutableShardMap.get_cloned_clear hash m k,
   MutableShardMap.len_clear _, MutableShardMap.is_empty_clear _,
   MutableShardMap.clear_clear m⟩

/-- Witness for C8 at a concrete one-shard container with one entry. -/
theorem claimC8_witness :
    ShardMap.len (ShardMap.clear
      (⟨[⟨[(0, 1)]⟩]⟩ : MutableShardMap Nat Nat)) = 0 ∧
    ShardMap.is_empty (ShardMap.clear
      (⟨[⟨[(0, 1)]⟩]⟩ : MutableShardMap Nat Nat)) = true ∧
    ShardMap.get_cloned (fun n => n) (ShardMap.clear
      (⟨[⟨[(0, 1)]⟩]⟩ : MutableShardMap Nat Nat)) 0 = none ∧
    ShardMap.len (ShardMap.clear (ShardMap.clear
      (⟨[⟨[(0, 1)]⟩]⟩ : MutableShardMap Nat Nat))) = 0 ∧
    ShardMap.is_empty (ShardMap.clear (ShardMap.clear
      (⟨[⟨[(0, 1)]⟩]⟩ : MutableShardMap Nat Nat))) = true ∧
    ShardMap.clear (ShardMap.clear
      (⟨[⟨[(0, 1)]⟩]⟩ : MutableShardMap Nat Nat)) =
      ShardMap.clear (⟨[⟨[(0, 1)]⟩]⟩ : MutableShardMap Nat Nat) :=
  claimC8 (fun n => n) ⟨[⟨[(0, 1)]⟩]⟩ 0

/-- C9: `insert(k, v)` and `remove(k)` each touch exactly the shard at
index `hash(k) mod shard_count`, leaving the contents of every other shard
unchanged. -/
theorem claimC9 {K V : Type} [DecidableEq K] (hash : K → Nat)
    (m : MutableShardMap K V) (k : K) (v : V) :
    m.shard hash k = hash k % m.shards.length ∧
    (∀ j : Nat, j ≠ m.shard hash k →
      (ShardMap.insert hash m k v).2.shards.getD j ⟨[]⟩ =
        m.shards.getD j ⟨[]⟩) ∧
    (∀ j : Nat, j ≠ m.shard hash k →
      (ShardMap.remove hash m k).2.shards.getD j ⟨[]⟩ =
        m.shards.getD j ⟨[]⟩) := by
  refine ⟨rfl, ?_, ?_⟩
  · intro j hj
    rw [MutableShardMap.insert_shards]
    exact list_getD_set_ne _ _ _ _ _ fun he => hj he.symm
  · intro j hj
    rw [MutableShardMap.remove_shards]
    exact list_getD_set_ne _ _ _ _ _ fun he => hj he.symm

/-- Witness for C9: key 0 routes to shard 0 of a two-shard container. -/
theorem claimC9_witness :
    (⟨[⟨[(0, 7)]⟩, ⟨[(1, 8)]⟩]⟩ : MutableShardMap Nat Nat).shard
      (fun n => n) 0 =
      0 % (⟨[⟨[(0, 7)]⟩, ⟨[(1, 8)]⟩]⟩ :
        MutableShardMap Nat Nat).shards.length ∧
    (∀ j : Nat, j ≠ (⟨[⟨[(0, 7)]⟩, ⟨[(1, 8)]⟩]⟩ :
        MutableShardMap Nat Nat).shard (fun n => n) 0 →
      (ShardMap.insert (fun n => n)
        (⟨[⟨[(0, 7)]⟩, ⟨[(1, 8)]⟩]⟩ : MutableShardMap Nat Nat) 0
        9).2.shards.getD j ⟨[]⟩ =
        (⟨[⟨[(0, 7)]⟩, ⟨[(1, 8)]⟩]⟩ :
          MutableShardMap Nat Nat).shards.getD j ⟨[]⟩) ∧
    (∀ j : Nat, j ≠ (⟨[⟨[(0, 7)]⟩, ⟨[(1, 8)]⟩]⟩ :
        MutableShardMap Nat Nat).shard (fun n => n) 0 →
      (ShardMap.remove (fun n => n)
        (⟨[⟨[(0, 7)]⟩, ⟨[(1, 8)]⟩]⟩ :
          MutableShardMap Nat Nat) 0).2.shards.getD j ⟨[]⟩ =
        (⟨[⟨[(0, 7)]⟩, ⟨[(1, 8)]⟩]⟩ :
          MutableShardMap Nat Nat).shards.getD j ⟨[]⟩) :=
  claimC9 (fun n => n) ⟨[⟨[(0, 7)]⟩, ⟨[(1, 8)]⟩]⟩ 0 9

/-- C10: `contains_key` agrees with the applicable lookup — `get` on a
Plain container, `get_cloned` on a Synchronized container — all three
routing the query through the same shard function. -/
theorem claimC10 {K V : Type} [DecidableEq K] (hash : K → Nat)
    (p : PlainShardMap K V) (s : MutableShardMap K V) (q : K) :
    ShardMap.contains_key hash p q = (ShardMap.get hash p q).isSome ∧
    ShardMap.contains_key hash s q =
      (ShardMap.get_cloned hash s q).isSome :=
  ⟨rfl, rfl⟩

/-- Witness for C10 at concrete one-shard containers. -/
theorem claimC10_witness :
    ShardMap.contains_key (fun n => n)
      (⟨[[(0, 1)]]⟩ : PlainShardMap Nat Nat) 0 =
      (ShardMap.get (fun n => n)
        (⟨[[(0, 1)]]⟩ : PlainShardMap Nat Nat) 0).isSome ∧
    ShardMap.contains_key (fun n => n)
      (⟨[⟨[(0, 2)]⟩]⟩ : MutableShardMap Nat Nat) 0 =
      (ShardMap.get_cloned (fun n => n)
        (⟨[⟨[(0, 2)]⟩]⟩ : MutableShardMap Nat Nat) 0).isSome :=
  claimC10 (fun n => n) ⟨[[(0, 1)]]⟩ ⟨[⟨[(0, 2)]⟩]⟩ 0
